import Mathlib

/-!
Verification of the Sainte-Laguë seat-allocation library (`src/lib.rs`,
function `distribute`) against its specification.

Embedding choices, stated once here:

* `f64` vote values are modelled by the type `F`: an exact rational for every
  finite double, plus `F.inf`, `F.ninf` and `F.nan` for the special values.
  The comparison (`<`, `==`), addition and division operations mirror the IEEE
  semantics on these constructors; finite arithmetic is exact.  Properties
  that must hold for the really rounded `f64` division are proved over the
  abstracted pipeline (`distributeGen`), quantified over every quotient map
  and every sort function; rounding-dependent behavior (underflow of small
  quotients) is exhibited through a quotient map (`divC5`) that records the
  actual IEEE double results on its inputs.
* The cast `seat_count as i64` (at the divisor range and at
  `seats_too_many`) and the i64 arithmetic on it are modelled exactly
  (`usizeAsI64`, `wrap64`), wrapping on overflow as the release profile
  does; a profile with overflow checks panics where the wrap fires.
* `slice::sort_by` is a stable sort by the comparator
  `b.quotient.partial_cmp(&a.quotient).unwrap_or(Equal)`; it is modelled by a
  stable insertion sort (`sortBy`) over the Bool relation `pqLE`, which agrees
  with every stable sort whenever the comparator induces a total preorder.
* `rand::seq::SliceRandom::choose_multiple(rng, amount)` is modelled by an
  abstract function argument `pick`; `ValidPick pick` states the guarantees of
  `choose_multiple` that are used: the chosen elements come from the given
  list and exactly `min amount len` of them are returned.  Quantifying over
  all such `pick` covers every possible outcome of the random draw.
* The panic sites of the Rust function are the indexing
  `distribution[pq.party] += 1` in the tally loop — modelled as an
  `Option`-valued fold where `none` represents a panic, the whole function
  returning `Option (DResult)` — and, in profiles with overflow checks
  only, the `seats_too_many` subtraction at seat counts of 2^63 and above.
-/

/-- Model of an `f64` value: exact finite rational, infinities, or NaN. -/
inductive F where
  | nan : F
  | inf : F
  | ninf : F
  | fin (q : ℚ) : F
deriving DecidableEq, Repr

/-- IEEE `<` on modelled doubles (`false` whenever NaN is involved). -/
def F.lt : F → F → Bool
  | F.nan, _ => false
  | _, F.nan => false
  | F.ninf, F.ninf => false
  | F.ninf, _ => true
  | _, F.ninf => false
  | F.inf, _ => false
  | F.fin _, F.inf => true
  | F.fin a, F.fin b => decide (a < b)

/-- IEEE `==` on modelled doubles (`false` whenever NaN is involved). -/
def F.beq : F → F → Bool
  | F.nan, _ => false
  | _, F.nan => false
  | F.inf, F.inf => true
  | F.ninf, F.ninf => true
  | F.fin a, F.fin b => decide (a = b)
  | _, _ => false

/-- IEEE addition on modelled doubles (exact on finite values). -/
def F.add : F → F → F
  | F.nan, _ => F.nan
  | _, F.nan => F.nan
  | F.inf, F.ninf => F.nan
  | F.ninf, F.inf => F.nan
  | F.inf, _ => F.inf
  | _, F.inf => F.inf
  | F.ninf, _ => F.ninf
  | _, F.ninf => F.ninf
  | F.fin a, F.fin b => F.fin (a + b)

/-- `votes.iter().sum::<f64>()`: left fold of `+` starting from `0.0`. -/
def F.sum (l : List F) : F := l.foldl F.add (F.fin 0)

/-- Division of a modelled double by a positive rational divisor (the only
divisions the code performs are by the divisors `0.5, 1.5, …`, all positive,
so the sign of the divisor needs no case split). Exact on finite values. -/
def F.div : F → ℚ → F
  | F.nan, _ => F.nan
  | F.inf, _ => F.inf
  | F.ninf, _ => F.ninf
  | F.fin q, d => F.fin (q / d)

/-- IEEE `partial_cmp` on modelled doubles: `none` whenever NaN is involved. -/
def F.pcmp : F → F → Option Ordering
  | F.nan, _ => none
  | _, F.nan => none
  | F.inf, F.inf => some Ordering.eq
  | F.inf, _ => some Ordering.gt
  | _, F.inf => some Ordering.lt
  | F.ninf, F.ninf => some Ordering.eq
  | F.ninf, _ => some Ordering.lt
  | _, F.ninf => some Ordering.gt
  | F.fin a, F.fin b =>
      some (if a < b then Ordering.lt else if a = b then Ordering.eq else Ordering.gt)

/-- The modelled double is a finite value. -/
def F.isFin (x : F) : Prop := ∃ q : ℚ, x = F.fin q

/-- Decidable check: finite and non-negative (used to state hypotheses about
"all votes finite and non-negative" in executable form). -/
def F.isFinNonneg : F → Bool
  | F.fin q => decide (0 ≤ q)
  | _ => false

/-- The struct `PartyQuotient { party: usize, quotient: f64 }` of the source. -/
structure PartyQuotient where
  party : ℕ
  quotient : F
deriving DecidableEq, Repr

/-- The enum `DistributionError` of the source. -/
inductive DistributionError where
  | Tied : DistributionError
  | InvalidSeatCount : DistributionError
  | NegativeVotes : DistributionError
  | NoVotes : DistributionError
deriving DecidableEq, Repr

/-- The `Result<Vec<usize>, DistributionError>` return type of `distribute`. -/
inductive DResult where
  | ok (d : List ℕ) : DResult
  | err (e : DistributionError) : DResult
deriving DecidableEq, Repr

/-- Two's complement value of the source's `seat_count as i64` cast (used at
the divisor range and at `seats_too_many`): on 64-bit targets the usize
value, reduced mod 2^64, is reinterpreted as a signed 64-bit integer, so
seat counts of 2^63 and above become negative. -/
def usizeAsI64 (n : ℕ) : ℤ :=
  if n % 2^64 < 2^63 then ((n % 2^64 : ℕ) : ℤ) else ((n % 2^64 : ℕ) : ℤ) - 2^64

/-- Wrap of an i64 arithmetic result, as release-profile Rust wraps on
overflow (profiles with overflow checks panic on the same inputs; that
divergence is reported on the panic-freedom claim). -/
def wrap64 (z : ℤ) : ℤ := (z + 2^63) % 2^64 - 2^63

/-- The divisor sequence `(1..=(seat_count as i64)).map(|d| d as f64 - 0.5)`
of the source: empty when the wrapped cast is non-positive, else
`0.5, 1.5, …` (divisor values taken exactly; see the header note). -/
def divisors (seat_count : ℕ) : List ℚ :=
  (List.range (Int.toNat (usizeAsI64 seat_count))).map
    (fun d : ℕ => ((d : ℚ) + 1) - 1/2)

/-- Helper for the candidate pool: the `enumerate().flat_map(…)` of the
source, with `n` the index of the first remaining vote. It is parameterized
by the per-(vote, divisor) quotient map `quot`, so that theorems can
quantify over every possible f64 rounding behavior of the division
`v / d`; the concrete pipeline instantiates `quot` with exact division. -/
def pqGo (quot : F → ℚ → F) (seat_count : ℕ) (n : ℕ) : List F → List PartyQuotient
  | [] => []
  | v :: rest =>
      (divisors seat_count).map (fun d => PartyQuotient.mk n (quot v d))
        ++ pqGo quot seat_count (n + 1) rest

/-- The candidate pool `party_quotients` of the source: one entry per
(party, divisor) pair, parties indexed by position in `votes`, quotients by
exact division. -/
def partyQuotients (votes : List F) (seat_count : ℕ) : List PartyQuotient :=
  pqGo F.div seat_count 0 votes

/-- The comparator of the source, turned into a Bool "may precede" relation:
`pqLE a b` holds iff `b.quotient.partial_cmp(&a.quotient).unwrap_or(Equal)`
is not `Greater`, i.e. the sort may place `a` before `b`. -/
def pqLE (a b : PartyQuotient) : Bool :=
  decide (((F.pcmp b.quotient a.quotient).getD Ordering.eq) ≠ Ordering.gt)

/-- Insert an element into a list, before the first element it may precede
(stable insertion step). -/
def insertLE (le : PartyQuotient → PartyQuotient → Bool) (a : PartyQuotient) :
    List PartyQuotient → List PartyQuotient
  | [] => [a]
  | b :: l => if le a b then a :: b :: l else b :: insertLE le a l

/-- Stable insertion sort; models `slice::sort_by` (a stable sort), with which
it agrees whenever the comparator induces a total preorder. -/
def sortBy (le : PartyQuotient → PartyQuotient → Bool) :
    List PartyQuotient → List PartyQuotient
  | [] => []
  | a :: l => insertLE le a (sortBy le l)

/-- The sorted candidate pool (`party_quotients` after `sort_by`). -/
def sortedPQ (votes : List F) (seat_count : ℕ) : List PartyQuotient :=
  sortBy pqLE (partyQuotients votes seat_count)

/-- `last_winning_quotient` of the source:
`party_quotients.get(seat_count - 1).map(|pq| pq.quotient).unwrap_or(0.0)`. -/
def lastWinningQuotient (votes : List F) (seat_count : ℕ) : F :=
  (((sortedPQ votes seat_count)[seat_count - 1]?).map PartyQuotient.quotient).getD (F.fin 0)

/-- The `winners` filter of the source: strictly above the threshold. -/
def winnersOf (votes : List F) (seat_count : ℕ) : List PartyQuotient :=
  (sortedPQ votes seat_count).filter
    (fun pq => F.lt (lastWinningQuotient votes seat_count) pq.quotient)

/-- The `possible_winners` filter of the source: exactly at the threshold. -/
def possibleWinnersOf (votes : List F) (seat_count : ℕ) : List PartyQuotient :=
  (sortedPQ votes seat_count).filter
    (fun pq => F.beq pq.quotient (lastWinningQuotient votes seat_count))

/-- `seats_too_many` of the source: i64 arithmetic on the two filter lengths
and the wrapped cast of `seat_count`, with the result wrapped as
release-profile i64 subtraction wraps. The list lengths themselves are taken
exactly: no run that actually allocates the pool can reach 2^63 entries. -/
def seatsTooMany (votes : List F) (seat_count : ℕ) : ℤ :=
  wrap64 (((winnersOf votes seat_count).length : ℤ)
    + ((possibleWinnersOf votes seat_count).length : ℤ) - usizeAsI64 seat_count)

/-- `distribution[i] += 1` (caller has already checked `i` is in bounds). -/
def incAt : List ℕ → ℕ → List ℕ
  | [], _ => []
  | x :: l, 0 => (x + 1) :: l
  | x :: l, i + 1 => x :: incAt l i

/-- The tally loop `for pq in winners { distribution[pq.party] += 1 }`;
`none` models the panic of an out-of-bounds index. -/
def tallyGo : List ℕ → List PartyQuotient → Option (List ℕ)
  | dist, [] => some dist
  | dist, pq :: rest =>
      if pq.party < dist.length then tallyGo (incAt dist pq.party) rest else none

/-- The final tally: start from `vec![0; votes.len()]` and count winners. -/
def tally (parties : ℕ) (winners : List PartyQuotient) : Option (List ℕ) :=
  tallyGo (List.replicate parties 0) winners

/-- The guarantees of `choose_multiple(rng, amount)` used in the proofs: every
chosen element comes from the given list, and exactly `min amount len`
elements are chosen. Quantifying theorems over every `pick` satisfying this
covers every possible outcome of the random draw. -/
def ValidPick (pick : List PartyQuotient → ℕ → List PartyQuotient) : Prop :=
  ∀ l n, (∀ x ∈ pick l n, x ∈ l) ∧ (pick l n).length = min n l.length

/-- A concrete valid pick (takes the first `n` elements), used to instantiate
theorems at concrete inputs. -/
def pickTake (l : List PartyQuotient) (n : ℕ) : List PartyQuotient := l.take n

/-- Another concrete valid pick (takes the last `n` elements), used to show
two distinct random outcomes. -/
def pickDrop (l : List PartyQuotient) (n : ℕ) : List PartyQuotient :=
  l.drop (l.length - n)

/-- The function `distribute` of the source, translated clause by clause.
`pick` abstracts the random draw (see `ValidPick`); `none` models a panic. -/
def distribute (pick : List PartyQuotient → ℕ → List PartyQuotient)
    (votes : List F) (seat_count : ℕ) (draw_on_tie : Bool) : Option DResult :=
  if seat_count < 1 then some (DResult.err DistributionError.InvalidSeatCount)
  else if votes.any (fun v => F.lt v (F.fin 0)) then
    some (DResult.err DistributionError.NegativeVotes)
  else if F.beq (F.sum votes) (F.fin 0) then
    some (DResult.err DistributionError.NoVotes)
  else if 0 < seatsTooMany votes seat_count then
    if draw_on_tie = false then some (DResult.err DistributionError.Tied)
    else
      (tally votes.length
          (winnersOf votes seat_count ++
            pick (possibleWinnersOf votes seat_count)
              (Int.toNat ((possibleWinnersOf votes seat_count).length
                - seatsTooMany votes seat_count)))).map DResult.ok
  else
    (tally votes.length
      (winnersOf votes seat_count ++ possibleWinnersOf votes seat_count)).map DResult.ok

/-- The sorted candidate pool with the quotient map `quot` and the sorting
function `srt` abstracted. `srt` covers the unspecified order produced by
`slice::sort_by` when the comparator is not a total preorder (NaN-mixed
pools) as well as any stable sort; `quot` covers every f64 rounding of the
divisions. Instantiating `quot := F.div` and `srt := sortBy pqLE` recovers
the concrete pipeline (theorem `distributeGen_eq_distribute`). -/
def sortedPQGen (quot : F → ℚ → F) (srt : List PartyQuotient → List PartyQuotient)
    (votes : List F) (seat_count : ℕ) : List PartyQuotient :=
  srt (pqGo quot seat_count 0 votes)

/-- `last_winning_quotient` over the abstracted pipeline. -/
def lastWinningQuotientGen (quot : F → ℚ → F)
    (srt : List PartyQuotient → List PartyQuotient)
    (votes : List F) (seat_count : ℕ) : F :=
  (((sortedPQGen quot srt votes seat_count)[seat_count - 1]?).map
    PartyQuotient.quotient).getD (F.fin 0)

/-- The `winners` filter over the abstracted pipeline. -/
def winnersGen (quot : F → ℚ → F) (srt : List PartyQuotient → List PartyQuotient)
    (votes : List F) (seat_count : ℕ) : List PartyQuotient :=
  (sortedPQGen quot srt votes seat_count).filter
    (fun pq => F.lt (lastWinningQuotientGen quot srt votes seat_count) pq.quotient)

/-- The `possible_winners` filter over the abstracted pipeline. -/
def possibleWinnersGen (quot : F → ℚ → F) (srt : List PartyQuotient → List PartyQuotient)
    (votes : List F) (seat_count : ℕ) : List PartyQuotient :=
  (sortedPQGen quot srt votes seat_count).filter
    (fun pq => F.beq pq.quotient (lastWinningQuotientGen quot srt votes seat_count))

/-- `seats_too_many` over the abstracted pipeline (same i64 semantics). -/
def seatsTooManyGen (quot : F → ℚ → F) (srt : List PartyQuotient → List PartyQuotient)
    (votes : List F) (seat_count : ℕ) : ℤ :=
  wrap64 (((winnersGen quot srt votes seat_count).length : ℤ)
    + ((possibleWinnersGen quot srt votes seat_count).length : ℤ)
    - usizeAsI64 seat_count)

/-- `distribute` over the abstracted pipeline: identical control flow, with
the quotient map and the sort abstracted. Theorems quantified over `quot`
and `srt` therefore cover the program's real IEEE rounding and its real
sort order. -/
def distributeGen (quot : F → ℚ → F) (srt : List PartyQuotient → List PartyQuotient)
    (pick : List PartyQuotient → ℕ → List PartyQuotient)
    (votes : List F) (seat_count : ℕ) (draw_on_tie : Bool) : Option DResult :=
  if seat_count < 1 then some (DResult.err DistributionError.InvalidSeatCount)
  else if votes.any (fun v => F.lt v (F.fin 0)) then
    some (DResult.err DistributionError.NegativeVotes)
  else if F.beq (F.sum votes) (F.fin 0) then
    some (DResult.err DistributionError.NoVotes)
  else if 0 < seatsTooManyGen quot srt votes seat_count then
    if draw_on_tie = false then some (DResult.err DistributionError.Tied)
    else
      (tally votes.length
          (winnersGen quot srt votes seat_count ++
            pick (possibleWinnersGen quot srt votes seat_count)
              (Int.toNat ((possibleWinnersGen quot srt votes seat_count).length
                - seatsTooManyGen quot srt votes seat_count)))).map DResult.ok
  else
    (tally votes.length
      (winnersGen quot srt votes seat_count ++
        possibleWinnersGen quot srt votes seat_count)).map DResult.ok

/-- The rational value of the smallest positive subnormal double, `2^-1074`
(`5e-324`), the exponent written in chunks of at most 256. -/
def subnormalMin : ℚ := 1 / ((((2^256)^4) * (2^50) : ℕ) : ℚ)

/-- A quotient map recording the actual IEEE `f64` results of `v / d` on the
inputs of the underflow counterexample below, where every vote is either
`0.0` or the smallest positive subnormal double `2^-1074` (`5e-324`) and the
divisors are `0.5`, `1.5`, `2.5`: dividing `2^-1074` by them gives `2^-1073`
(exact, here `2 * q`), `2^-1074` (round to nearest, here `q` itself) and
`+0.0` (underflow), while `0.0` divided by anything positive stays `+0.0`. -/
def divC5 : F → ℚ → F := fun v d =>
  match v with
  | F.fin q =>
      if q = 0 then F.fin 0
      else if d = 1/2 then F.fin (2 * q)
      else if d = 3/2 then F.fin q
      else F.fin 0
  | x => F.div x d

/-- Modelled from the spec (for claim C4 only): the divisor sequence as the
claim words it, "d = 1.5, 2.5, 3.5, … up to seat_count − 0.5". -/
def specDivisors (seat_count : ℕ) : List ℚ :=
  (List.range (seat_count - 1)).map (fun d : ℕ => ((d : ℚ) + 2) - 1/2)

/-- Modelled from the spec (for claim C4 only): the candidate pool the claim
describes, one quotient per (party, `specDivisors` entry) pair. -/
def specPartyQuotientsGo (seat_count : ℕ) (n : ℕ) : List F → List PartyQuotient
  | [] => []
  | v :: rest =>
      (specDivisors seat_count).map (fun d => PartyQuotient.mk n (F.div v d))
        ++ specPartyQuotientsGo seat_count (n + 1) rest

/-- Modelled from the spec (for claim C4 only): the full claimed pool. -/
def specPartyQuotients (votes : List F) (seat_count : ℕ) : List PartyQuotient :=
  specPartyQuotientsGo seat_count 0 votes

/-- On finite values, `<` is irreflexive. -/
theorem F.lt_self_eq_false {a : F} (ha : F.isFin a) : F.lt a a = false := by
  obtain ⟨q, rfl⟩ := ha
  simp [F.lt]

/-- On finite values, failure of `<` is transitive (that is, `≥` is). -/
theorem F.lt_trans_false {a b c : F} (ha : F.isFin a) (hb : F.isFin b) (hc : F.isFin c)
    (hab : F.lt a b = false) (hbc : F.lt b c = false) : F.lt a c = false := by
  obtain ⟨p, rfl⟩ := ha
  obtain ⟨q, rfl⟩ := hb
  obtain ⟨r, rfl⟩ := hc
  simp [F.lt] at *
  linarith

/-- On finite values, `<` is asymmetric. -/
theorem F.lt_asymm_fin {a b : F} (ha : F.isFin a) (hb : F.isFin b)
    (hab : F.lt a b = true) : F.lt b a = false := by
  obtain ⟨p, rfl⟩ := ha
  obtain ⟨q, rfl⟩ := hb
  simp [F.lt] at *
  linarith

/-- On finite values, not `<` splits into `>` or `==` (trichotomy). -/
theorem F.lt_false_cases {a b : F} (ha : F.isFin a) (hb : F.isFin b)
    (hab : F.lt a b = false) : F.lt b a = true ∨ F.beq a b = true := by
  obtain ⟨p, rfl⟩ := ha
  obtain ⟨q, rfl⟩ := hb
  simp [F.lt, F.beq] at *
  rcases lt_or_eq_of_le hab with h | h
  · exact Or.inl h
  · exact Or.inr h.symm

/-- On finite values, `==` means equality. -/
theorem F.beq_eq {a b : F} (ha : F.isFin a) (hab : F.beq a b = true) : a = b := by
  obtain ⟨p, rfl⟩ := ha
  cases b <;> simp [F.beq] at hab ⊢
  exact hab

/-- On finite values, `==` is reflexive. -/
theorem F.beq_self {a : F} (ha : F.isFin a) : F.beq a a = true := by
  obtain ⟨q, rfl⟩ := ha
  simp [F.beq]

/-- On finite quotients, the sort relation `pqLE a b` says exactly that
`a.quotient` is not smaller than `b.quotient`. -/
theorem pqLE_iff {a b : PartyQuotient} (ha : F.isFin a.quotient) (hb : F.isFin b.quotient) :
    pqLE a b = true ↔ F.lt a.quotient b.quotient = false := by
  obtain ⟨p, hp⟩ := ha
  obtain ⟨q, hq⟩ := hb
  rw [pqLE, hp, hq]
  simp [F.pcmp, F.lt]
  constructor
  · intro h
    rcases h with h | h
    · exact le_of_lt h
    · exact le_of_eq h
  · intro h
    exact h.lt_or_eq

/-- Membership in an insertion step. -/
theorem mem_insertLE {le : PartyQuotient → PartyQuotient → Bool} {a x : PartyQuotient} :
    ∀ {l : List PartyQuotient}, x ∈ insertLE le a l ↔ x = a ∨ x ∈ l := by
  intro l
  induction l with
  | nil => simp [insertLE]
  | cons b t ih =>
      simp only [insertLE]
      split
      · simp
      · simp [ih]
        tauto

/-- An insertion step counts like consing. -/
theorem countP_insertLE (le : PartyQuotient → PartyQuotient → Bool) (a : PartyQuotient)
    (p : PartyQuotient → Bool) :
    ∀ l : List PartyQuotient, (insertLE le a l).countP p = (a :: l).countP p := by
  intro l
  induction l with
  | nil => simp [insertLE]
  | cons b t ih =>
      simp only [insertLE]
      split
      · rfl
      · simp only [List.countP_cons, ih]
        omega

/-- Sorting preserves `countP`. -/
theorem countP_sortBy (le : PartyQuotient → PartyQuotient → Bool) (p : PartyQuotient → Bool) :
    ∀ l : List PartyQuotient, (sortBy le l).countP p = l.countP p := by
  intro l
  induction l with
  | nil => rfl
  | cons a t ih =>
      simp only [sortBy]
      rw [countP_insertLE, List.countP_cons, List.countP_cons, ih]

/-- Sorting preserves length. -/
theorem length_sortBy (le : PartyQuotient → PartyQuotient → Bool) (l : List PartyQuotient) :
    (sortBy le l).length = l.length := by
  have h := countP_sortBy le (fun _ => true) l
  simpa [List.countP_true] using h

/-- Sorting preserves membership. -/
theorem mem_sortBy {le : PartyQuotient → PartyQuotient → Bool} {x : PartyQuotient} :
    ∀ {l : List PartyQuotient}, x ∈ sortBy le l ↔ x ∈ l := by
  intro l
  induction l with
  | nil => simp [sortBy]
  | cons a t ih =>
      simp only [sortBy]
      rw [mem_insertLE]
      simp [ih]

/-- Inserting into a sorted list keeps it sorted, provided the relation is
transitive and total on a predicate covering all elements involved. -/
theorem pairwise_insertLE {le : PartyQuotient → PartyQuotient → Bool}
    (P : PartyQuotient → Prop)
    (htr : ∀ x y z, P x → P y → P z → le x y = true → le y z = true → le x z = true)
    (hto : ∀ x y, P x → P y → le x y = true ∨ le y x = true)
    {a : PartyQuotient} (ha : P a) :
    ∀ {l : List PartyQuotient}, (∀ x ∈ l, P x) →
      l.Pairwise (fun x y => le x y = true) →
      (insertLE le a l).Pairwise (fun x y => le x y = true) := by
  intro l
  induction l with
  | nil => intro _ _; simp [insertLE]
  | cons b t ih =>
      intro hl hs
      rw [List.pairwise_cons] at hs
      simp only [insertLE]
      split
      · rename_i hab
        rw [List.pairwise_cons]
        refine ⟨?_, List.pairwise_cons.mpr hs⟩
        intro y hy
        rcases List.mem_cons.mp hy with rfl | hyt
        · exact hab
        · exact htr a b y ha (hl b (by simp)) (hl y (by simp [hyt])) hab (hs.1 y hyt)
      · rename_i hab
        rw [List.pairwise_cons]
        constructor
        · intro y hy
          rcases mem_insertLE.mp hy with rfl | hyt
          · rcases hto y b ha (hl b (by simp)) with h | h
            · exact absurd h hab
            · exact h
          · exact hs.1 y hyt
        · exact ih (fun x hx => hl x (by simp [hx])) hs.2

/-- The insertion sort produces a list that is pairwise ordered by `le`,
provided `le` is transitive and total on a predicate covering all elements. -/
theorem pairwise_sortBy {le : PartyQuotient → PartyQuotient → Bool}
    (P : PartyQuotient → Prop)
    (htr : ∀ x y z, P x → P y → P z → le x y = true → le y z = true → le x z = true)
    (hto : ∀ x y, P x → P y → le x y = true ∨ le y x = true) :
    ∀ l : List PartyQuotient, (∀ x ∈ l, P x) →
      (sortBy le l).Pairwise (fun x y => le x y = true) := by
  intro l
  induction l with
  | nil => intro _; simp [sortBy]
  | cons a t ih =>
      intro hl
      simp only [sortBy]
      exact pairwise_insertLE P htr hto (hl a (by simp))
        (fun x hx => hl x (by simp [mem_sortBy.mp hx]))
        (ih (fun x hx => hl x (by simp [hx])))

/-- Every divisor `d - 0.5` for `d = 1..` is positive. -/
theorem divisors_pos {k : ℕ} {d : ℚ} (hd : d ∈ divisors k) : 0 < d := by
  rw [divisors] at hd
  obtain ⟨j, hj, rfl⟩ := List.mem_map.mp hd
  have hj0 : (0 : ℚ) ≤ (j : ℚ) := Nat.cast_nonneg j
  linarith

/-- The cast is the identity below 2^63. -/
theorem usizeAsI64_of_lt {n : ℕ} (h : n < 2^63) : usizeAsI64 n = (n : ℤ) := by
  unfold usizeAsI64
  have hm : n % 2^64 = n := Nat.mod_eq_of_lt (by omega)
  rw [hm, if_pos h]

/-- The wrap is the identity on i64-range values. -/
theorem wrap64_eq_self {z : ℤ} (h1 : -2^63 ≤ z) (h2 : z < 2^63) : wrap64 z = z := by
  unfold wrap64
  omega

/-- The number of divisors is the clamped wrapped cast of `seat_count`. -/
theorem length_divisors (k : ℕ) : (divisors k).length = Int.toNat (usizeAsI64 k) := by
  rw [divisors, List.length_map, List.length_range]

/-- Below the wrap threshold there are `seat_count` divisors. -/
theorem length_divisors_of_lt {k : ℕ} (h : k < 2^63) : (divisors k).length = k := by
  rw [length_divisors, usizeAsI64_of_lt h]
  exact Int.toNat_natCast k

/-- The candidate pool has `parties * |divisors|` entries (for any quotient
map). -/
theorem length_pqGo (quot : F → ℚ → F) (k : ℕ) :
    ∀ (vs : List F) (n : ℕ), (pqGo quot k n vs).length = vs.length * (divisors k).length := by
  intro vs
  induction vs with
  | nil => intro n; simp [pqGo]
  | cons v rest ih =>
      intro n
      rw [pqGo, List.length_append, List.length_map, ih, List.length_cons]
      ring

/-- Characterisation of the candidate-pool entries: each comes from a vote at
some index and a divisor (for any quotient map). -/
theorem mem_pqGo {quot : F → ℚ → F} {k : ℕ} : ∀ {vs : List F} {n : ℕ} {pq : PartyQuotient},
    pq ∈ pqGo quot k n vs → ∃ j v, vs[j]? = some v ∧ pq.party = n + j ∧
      ∃ d ∈ divisors k, pq.quotient = quot v d := by
  intro vs
  induction vs with
  | nil => intro n pq h; simp [pqGo] at h
  | cons v rest ih =>
      intro n pq h
      rcases List.mem_append.mp h with h | h
      · obtain ⟨d, hd, rfl⟩ := List.mem_map.mp h
        exact ⟨0, v, by simp, by simp, d, hd, rfl⟩
      · obtain ⟨j, w, hw, hpty, d, hd, hq⟩ := ih h
        exact ⟨j + 1, w, by simpa using hw, by omega, d, hd, hq⟩

/-- Converse: every (vote, divisor) pair contributes an entry to the pool
(for any quotient map). -/
theorem pqGo_mem {quot : F → ℚ → F} {k : ℕ} : ∀ {vs : List F} {j n : ℕ} {v : F} {d : ℚ},
    vs[j]? = some v → d ∈ divisors k →
    PartyQuotient.mk (n + j) (quot v d) ∈ pqGo quot k n vs := by
  intro vs
  induction vs with
  | nil => intro j n v d h _; simp at h
  | cons v0 rest ih =>
      intro j n v d hj hd
      cases j with
      | zero =>
          simp at hj
          subst hj
          exact List.mem_append_left _ (List.mem_map.mpr ⟨d, hd, by simp⟩)
      | succ j =>
          simp at hj
          have h := ih (n := n + 1) hj hd
          have he : n + 1 + j = n + (j + 1) := by omega
          rw [he] at h
          exact List.mem_append_right _ h

/-- A party with strictly positive votes contributes one strictly positive
quotient per divisor to the exact-division pool. -/
theorem count_pos_pqGo {k : ℕ} : ∀ {vs : List F} (n : ℕ),
    (∃ v ∈ vs, ∃ q : ℚ, v = F.fin q ∧ 0 < q) →
    (divisors k).length ≤
      (pqGo F.div k n vs).countP (fun pq => F.lt (F.fin 0) pq.quotient) := by
  intro vs
  induction vs with
  | nil => intro n h; simp at h
  | cons v rest ih =>
      intro n h
      rw [pqGo, List.countP_append]
      rcases h with ⟨w, hw, q, hq, hqpos⟩
      rcases List.mem_cons.mp hw with rfl | hwr
      · subst hq
        have hall : ((divisors k).map
            (fun d => PartyQuotient.mk n (F.div (F.fin q) d))).countP
              (fun pq => F.lt (F.fin 0) pq.quotient) = (divisors k).length := by
          have h1 : ∀ pq ∈ (divisors k).map
              (fun d => PartyQuotient.mk n (F.div (F.fin q) d)),
              F.lt (F.fin 0) pq.quotient = true := by
            intro pq hpq
            obtain ⟨d, hd, rfl⟩ := List.mem_map.mp hpq
            simp [F.div, F.lt]
            exact div_pos hqpos (divisors_pos hd)
          rw [List.countP_eq_length.mpr h1, List.length_map]
        omega
      · have := ih (n + 1) ⟨w, hwr, q, hq, hqpos⟩
        omega

/-- Unfolding of the decidable finite-and-non-negative check. -/
theorem isFinNonneg_elim {v : F} (h : F.isFinNonneg v = true) :
    ∃ q : ℚ, v = F.fin q ∧ 0 ≤ q := by
  cases v <;> simp [F.isFinNonneg] at h
  rename_i q
  exact ⟨q, rfl, h⟩

/-- Folding IEEE addition over finite non-negative values stays finite, does
not decrease, and stays put only if every summand is zero. -/
theorem foldl_add_fin : ∀ (vs : List F), (∀ v ∈ vs, F.isFinNonneg v = true) →
    ∀ a : ℚ, ∃ s : ℚ, vs.foldl F.add (F.fin a) = F.fin s ∧ a ≤ s ∧
      ((∃ v ∈ vs, ∃ q : ℚ, v = F.fin q ∧ 0 < q) ∨ s = a) := by
  intro vs
  induction vs with
  | nil => intro _ a; exact ⟨a, rfl, le_refl a, Or.inr rfl⟩
  | cons v rest ih =>
      intro hall a
      obtain ⟨q, rfl, hq⟩ := isFinNonneg_elim (hall v (by simp))
      have hstep : (F.fin q :: rest).foldl F.add (F.fin a)
          = rest.foldl F.add (F.fin (a + q)) := by simp [F.add]
      obtain ⟨s, h1, h2, h3⟩ := ih (fun w hw => hall w (by simp [hw])) (a + q)
      refine ⟨s, by rw [hstep, h1], by linarith, ?_⟩
      rcases h3 with h3 | h3
      · obtain ⟨w, hw, r, hr, hrpos⟩ := h3
        exact Or.inl ⟨w, by simp [hw], r, hr, hrpos⟩
      · rcases lt_or_eq_of_le hq with h | h
        · exact Or.inl ⟨F.fin q, by simp, q, rfl, h⟩
        · exact Or.inr (by rw [h3, ← h, add_zero])

/-- The sum of finite non-negative votes is a finite non-negative rational,
zero only when every vote is zero-or-nonpositive in the list sense. -/
theorem sum_spec {votes : List F} (hall : ∀ v ∈ votes, F.isFinNonneg v = true) :
    ∃ s : ℚ, F.sum votes = F.fin s ∧ 0 ≤ s ∧
      ((∃ v ∈ votes, ∃ q : ℚ, v = F.fin q ∧ 0 < q) ∨ s = 0) :=
  foldl_add_fin votes hall 0

/-- Incrementing preserves length. -/
theorem length_incAt : ∀ (l : List ℕ) (i : ℕ), (incAt l i).length = l.length := by
  intro l
  induction l with
  | nil => intro i; rfl
  | cons x t ih =>
      intro i
      cases i with
      | zero => rfl
      | succ i => simp [incAt, ih]

/-- Incrementing an in-bounds slot adds one to the sum. -/
theorem sum_incAt : ∀ (l : List ℕ) (i : ℕ), i < l.length → (incAt l i).sum = l.sum + 1 := by
  intro l
  induction l with
  | nil => intro i h; simp at h
  | cons x t ih =>
      intro i h
      cases i with
      | zero => simp [incAt]; omega
      | succ i =>
          simp [incAt]
          rw [ih i (by simpa using h)]
          omega

/-- Slot values after an in-bounds increment. -/
theorem getD_incAt : ∀ (l : List ℕ) (i j : ℕ), i < l.length →
    (incAt l i).getD j 0 = l.getD j 0 + if i = j then 1 else 0 := by
  intro l
  induction l with
  | nil => intro i j h; simp at h
  | cons x t ih =>
      intro i j h
      cases i with
      | zero =>
          cases j with
          | zero => simp [incAt]
          | succ j => simp [incAt]
      | succ i =>
          cases j with
          | zero => simp [incAt]
          | succ j =>
              simp only [incAt, List.getD_cons_succ]
              rw [ih i j (by simpa using h)]
              by_cases hij : i = j
              · simp [hij]
              · simp [hij, fun h : i + 1 = j + 1 => hij (by omega)]

/-- Master lemma for the tally loop: with all party indices in bounds it
returns a tally of the same length whose total grows by the number of winners
processed and whose slot `j` counts the winners of party `j`. -/
theorem tallyGo_spec : ∀ (ws : List PartyQuotient) (dist : List ℕ),
    (∀ pq ∈ ws, pq.party < dist.length) →
    ∃ d, tallyGo dist ws = some d ∧ d.length = dist.length ∧
      d.sum = dist.sum + ws.length ∧
      ∀ j, d.getD j 0 = dist.getD j 0 + ws.countP (fun pq => pq.party == j) := by
  intro ws
  induction ws with
  | nil => intro dist _; exact ⟨dist, rfl, rfl, by simp, by simp⟩
  | cons pq rest ih =>
      intro dist hb
      have hpq : pq.party < dist.length := hb pq (by simp)
      have hstep : tallyGo dist (pq :: rest) = tallyGo (incAt dist pq.party) rest := by
        simp [tallyGo, hpq]
      obtain ⟨d, h1, h2, h3, h4⟩ := ih (incAt dist pq.party)
        (fun x hx => by rw [length_incAt]; exact hb x (by simp [hx]))
      refine ⟨d, by rw [hstep, h1], by rw [h2, length_incAt], ?_, ?_⟩
      · rw [h3, sum_incAt dist pq.party hpq]
        simp
        omega
      · intro j
        rw [h4 j, getD_incAt dist pq.party j hpq, List.countP_cons]
        simp only [beq_iff_eq]
        by_cases hj : pq.party = j
        · simp [hj]
          omega
        · simp [hj]

/-- The tally loop never changes the length of the distribution it returns. -/
theorem tallyGo_length : ∀ (ws : List PartyQuotient) (dist d : List ℕ),
    tallyGo dist ws = some d → d.length = dist.length := by
  intro ws
  induction ws with
  | nil =>
      intro dist d h
      simp [tallyGo] at h
      rw [← h]
  | cons pq rest ih =>
      intro dist d h
      simp only [tallyGo] at h
      split at h
      · rw [ih _ _ h, length_incAt]
      · exact absurd h (by simp)

/-- Counting a disjunction of disjoint predicates adds the counts. -/
theorem countP_or_of_disjoint (p q : PartyQuotient → Bool) :
    ∀ l : List PartyQuotient, (∀ x ∈ l, ¬(p x = true ∧ q x = true)) →
    l.countP (fun x => p x || q x) = l.countP p + l.countP q := by
  intro l
  induction l with
  | nil => intro _; simp
  | cons a t ih =>
      intro h
      rw [List.countP_cons, List.countP_cons, List.countP_cons,
        ih (fun x hx => h x (by simp [hx]))]
      have ha := h a (by simp)
      by_cases hp : p a = true
      · by_cases hq : q a = true
        · exact absurd ⟨hp, hq⟩ ha
        · have hq' : q a = false := by simpa using hq
          simp [hp, hq']
          omega
      · have hp' : p a = false := by simpa using hp
        by_cases hq : q a = true
        · simp [hp', hq]
          omega
        · have hq' : q a = false := by simpa using hq
          simp [hp', hq']

/-- If the element at index `k - 1` exists, dropping `k - 1` elements exposes
it as the head. -/
theorem drop_eq_cons_of_getElem? {l : List PartyQuotient} {k : ℕ} {x0 : PartyQuotient}
    (hk : 1 ≤ k) (hx0 : l[k-1]? = some x0) :
    l.drop (k-1) = x0 :: l.drop k := by
  have h : k - 1 < l.length := (List.getElem?_eq_some.mp hx0).1
  have he : x0 = l[k-1] := by
    rw [List.getElem?_eq_getElem h] at hx0
    exact (Option.some.inj hx0).symm
  have h1 : k - 1 + 1 = k := by omega
  have hd := List.drop_eq_getElem_cons (l := l) h
  rw [h1] at hd
  rw [hd, ← he]

/-- In a sorted pool of finite quotients, everything from index `k - 1` on is
at most the threshold (the quotient at index `k - 1`). -/
theorem sorted_drop_le {l : List PartyQuotient} {k : ℕ} {x0 : PartyQuotient}
    (hk : 1 ≤ k)
    (hs : l.Pairwise (fun a b => pqLE a b = true))
    (hfin : ∀ x ∈ l, F.isFin x.quotient)
    (hx0 : l[k-1]? = some x0) :
    ∀ y ∈ l.drop (k-1), F.lt x0.quotient y.quotient = false := by
  have hdrop := drop_eq_cons_of_getElem? hk hx0
  have hx0l : x0 ∈ l := List.getElem?_mem hx0
  have hsd : (l.drop (k-1)).Pairwise (fun a b => pqLE a b = true) :=
    List.Pairwise.sublist (List.drop_sublist _ _) hs
  rw [hdrop] at hsd
  have hrel := (List.pairwise_cons.mp hsd).1
  intro y hy
  rw [hdrop] at hy
  rcases List.mem_cons.mp hy with rfl | hyt
  · exact F.lt_self_eq_false (hfin y hx0l)
  · exact (pqLE_iff (hfin x0 hx0l) (hfin y (List.drop_subset _ _ hyt))).mp (hrel y hyt)

/-- In a sorted pool of finite quotients, everything before index `k - 1` is
at least the threshold. -/
theorem sorted_take_ge {l : List PartyQuotient} {k : ℕ} {x0 : PartyQuotient}
    (hk : 1 ≤ k)
    (hs : l.Pairwise (fun a b => pqLE a b = true))
    (hfin : ∀ x ∈ l, F.isFin x.quotient)
    (hx0 : l[k-1]? = some x0) :
    ∀ x ∈ l.take (k-1), F.lt x.quotient x0.quotient = false := by
  have hdrop := drop_eq_cons_of_getElem? hk hx0
  have hx0l : x0 ∈ l := List.getElem?_mem hx0
  have hsp : ∀ a ∈ l.take (k-1), ∀ b ∈ l.drop (k-1), pqLE a b = true := by
    have h := hs
    rw [← List.take_append_drop (k-1) l] at h
    exact (List.pairwise_append.mp h).2.2
  have hx0d : x0 ∈ l.drop (k-1) := by
    rw [hdrop]
    exact List.mem_cons_self _ _
  intro x hx
  exact (pqLE_iff (hfin x (List.take_subset _ _ hx)) (hfin x0 hx0l)).mp (hsp x hx x0 hx0d)

/-- Fewer than `k` entries lie strictly above the threshold. -/
theorem countP_gt_lt {l : List PartyQuotient} {k : ℕ} {x0 : PartyQuotient}
    (hk : 1 ≤ k)
    (hs : l.Pairwise (fun a b => pqLE a b = true))
    (hfin : ∀ x ∈ l, F.isFin x.quotient)
    (hx0 : l[k-1]? = some x0) :
    l.countP (fun x => F.lt x0.quotient x.quotient) < k := by
  have hsplit : l.countP (fun x => F.lt x0.quotient x.quotient)
      = (l.take (k-1)).countP (fun x => F.lt x0.quotient x.quotient)
        + (l.drop (k-1)).countP (fun x => F.lt x0.quotient x.quotient) := by
    conv_lhs => rw [← List.take_append_drop (k-1) l]
    rw [List.countP_append]
  have hzero : (l.drop (k-1)).countP (fun x => F.lt x0.quotient x.quotient) = 0 := by
    apply List.countP_eq_zero.mpr
    intro y hy
    simp [sorted_drop_le hk hs hfin hx0 y hy]
  have hle : (l.take (k-1)).countP (fun x => F.lt x0.quotient x.quotient)
      ≤ (l.take (k-1)).length := List.countP_le_length _
  have hlt : (l.take (k-1)).length ≤ k - 1 := by
    rw [List.length_take]
    omega
  omega

/-- At least `k` entries lie at or above the threshold (counted as strictly
above plus exactly equal). -/
theorem countP_ge_k {l : List PartyQuotient} {k : ℕ} {x0 : PartyQuotient}
    (hk : 1 ≤ k) (hkl : k ≤ l.length)
    (hs : l.Pairwise (fun a b => pqLE a b = true))
    (hfin : ∀ x ∈ l, F.isFin x.quotient)
    (hx0 : l[k-1]? = some x0) :
    k ≤ l.countP (fun x => F.lt x0.quotient x.quotient)
      + l.countP (fun x => F.beq x.quotient x0.quotient) := by
  have hx0l : x0 ∈ l := List.getElem?_mem hx0
  have hdisj : ∀ x ∈ l,
      ¬(F.lt x0.quotient x.quotient = true ∧ F.beq x.quotient x0.quotient = true) := by
    rintro x hx ⟨h1, h2⟩
    have hxq : x.quotient = x0.quotient := F.beq_eq (hfin x hx) h2
    rw [hxq, F.lt_self_eq_false (hfin x0 hx0l)] at h1
    simp at h1
  have hor := countP_or_of_disjoint _ _ l hdisj
  have htake : l.take k = l.take (k-1) ++ [x0] := by
    have h1 : k - 1 + 1 = k := by omega
    rw [← h1, List.take_succ, hx0]
    rfl
  have hallq : ∀ x ∈ l.take k,
      (fun x => F.lt x0.quotient x.quotient || F.beq x.quotient x0.quotient) x = true := by
    intro x hx
    rw [htake] at hx
    rcases List.mem_append.mp hx with hx | hx
    · rcases F.lt_false_cases (hfin x (List.take_subset _ _ hx)) (hfin x0 hx0l)
        (sorted_take_ge hk hs hfin hx0 x hx) with h | h
      · simp [h]
      · simp [h]
    · have hxx : x = x0 := by simpa using hx
      subst hxx
      simp [F.beq_self (hfin x hx0l)]
  have hcnt : (l.take k).countP
      (fun x => F.lt x0.quotient x.quotient || F.beq x.quotient x0.quotient) = k := by
    rw [List.countP_eq_length.mpr hallq, List.length_take]
    omega
  have hsplit : l.countP (fun x => F.lt x0.quotient x.quotient || F.beq x.quotient x0.quotient)
      = (l.take k).countP (fun x => F.lt x0.quotient x.quotient || F.beq x.quotient x0.quotient)
        + (l.drop k).countP
            (fun x => F.lt x0.quotient x.quotient || F.beq x.quotient x0.quotient) := by
    conv_lhs => rw [← List.take_append_drop k l]
    rw [List.countP_append]
  omega

/-- If at least `k` entries have strictly positive quotient, the threshold is
strictly positive. -/
theorem threshold_pos {l : List PartyQuotient} {k : ℕ} {x0 : PartyQuotient}
    (hk : 1 ≤ k)
    (hs : l.Pairwise (fun a b => pqLE a b = true))
    (hfin : ∀ x ∈ l, F.isFin x.quotient)
    (hx0 : l[k-1]? = some x0)
    (hcnt : k ≤ l.countP (fun x => F.lt (F.fin 0) x.quotient)) :
    F.lt (F.fin 0) x0.quotient = true := by
  have hx0l : x0 ∈ l := List.getElem?_mem hx0
  by_contra hc
  have h0 : F.lt (F.fin 0) x0.quotient = false := by simpa using hc
  have hzero : (l.drop (k-1)).countP (fun x => F.lt (F.fin 0) x.quotient) = 0 := by
    apply List.countP_eq_zero.mpr
    intro y hy
    have hy2 := F.lt_trans_false ⟨0, rfl⟩ (hfin x0 hx0l)
      (hfin y (List.drop_subset _ _ hy)) h0 (sorted_drop_le hk hs hfin hx0 y hy)
    simp [hy2]
  have hsplit : l.countP (fun x => F.lt (F.fin 0) x.quotient)
      = (l.take (k-1)).countP (fun x => F.lt (F.fin 0) x.quotient)
        + (l.drop (k-1)).countP (fun x => F.lt (F.fin 0) x.quotient) := by
    conv_lhs => rw [← List.take_append_drop (k-1) l]
    rw [List.countP_append]
  have hle : (l.take (k-1)).countP (fun x => F.lt (F.fin 0) x.quotient)
      ≤ (l.take (k-1)).length := List.countP_le_length _
  have hlt : (l.take (k-1)).length ≤ k - 1 := by
    rw [List.length_take]
    omega
  omega

/-- Every pool entry names a party index within the vote list. -/
theorem partyQuotients_party_lt {votes : List F} {k : ℕ} :
    ∀ pq ∈ partyQuotients votes k, pq.party < votes.length := by
  intro pq hpq
  obtain ⟨j, v, hv, hp, _⟩ := mem_pqGo hpq
  have hj : j < votes.length := (List.getElem?_eq_some.mp hv).1
  omega

/-- Every sorted-pool entry names a party index within the vote list. -/
theorem sortedPQ_party_lt {votes : List F} {k : ℕ} :
    ∀ pq ∈ sortedPQ votes k, pq.party < votes.length :=
  fun pq hpq => partyQuotients_party_lt pq (mem_sortBy.mp hpq)

/-- With finite non-negative votes, every pool quotient is finite. -/
theorem partyQuotients_fin {votes : List F} {k : ℕ}
    (hall : ∀ v ∈ votes, F.isFinNonneg v = true) :
    ∀ pq ∈ partyQuotients votes k, F.isFin pq.quotient := by
  intro pq hpq
  obtain ⟨j, v, hv, _, d, _, hq⟩ := mem_pqGo hpq
  obtain ⟨q, rfl, _⟩ := isFinNonneg_elim (hall v (List.getElem?_mem hv))
  exact ⟨q / d, by rw [hq]; simp [F.div]⟩

/-- With finite non-negative votes, every sorted-pool quotient is finite. -/
theorem sortedPQ_fin {votes : List F} {k : ℕ}
    (hall : ∀ v ∈ votes, F.isFinNonneg v = true) :
    ∀ pq ∈ sortedPQ votes k, F.isFin pq.quotient :=
  fun pq hpq => partyQuotients_fin hall pq (mem_sortBy.mp hpq)

/-- With finite non-negative votes, the sorted pool is pairwise ordered. -/
theorem sortedPQ_sorted {votes : List F} {k : ℕ}
    (hall : ∀ v ∈ votes, F.isFinNonneg v = true) :
    (sortedPQ votes k).Pairwise (fun a b => pqLE a b = true) := by
  apply pairwise_sortBy (fun pq => F.isFin pq.quotient)
  · intro x y z hx hy hz hxy hyz
    rw [pqLE_iff hx hy] at hxy
    rw [pqLE_iff hy hz] at hyz
    rw [pqLE_iff hx hz]
    exact F.lt_trans_false hx hy hz hxy hyz
  · intro x y hx hy
    rw [pqLE_iff hx hy, pqLE_iff hy hx]
    by_cases h : F.lt x.quotient y.quotient = true
    · exact Or.inr (F.lt_asymm_fin hx hy h)
    · exact Or.inl (by simpa using h)
  · exact partyQuotients_fin hall

/-- The sorted pool has `parties * |divisors|` entries. -/
theorem length_sortedPQ {votes : List F} {k : ℕ} :
    (sortedPQ votes k).length = votes.length * (divisors k).length := by
  rw [sortedPQ, length_sortBy]
  exact length_pqGo F.div k votes 0

/-- Without any finiteness assumption, `==` to a value excludes `<` from it:
the two filter predicates of the pipeline are disjoint. -/
theorem F.lt_eq_false_of_beq {a b : F} (h : F.beq a b = true) : F.lt b a = false := by
  cases a <;> cases b <;> simp_all [F.beq, F.lt]

/-- The winner and possible-winner filters of a pool never jointly exceed the
pool: their predicates are disjoint. -/
theorem filters_length_le (l : List PartyQuotient) (t : F) :
    (l.filter (fun pq => F.lt t pq.quotient)).length
      + (l.filter (fun pq => F.beq pq.quotient t)).length ≤ l.length := by
  rw [← List.countP_eq_length_filter, ← List.countP_eq_length_filter]
  rw [← countP_or_of_disjoint _ _ l ?_]
  · exact List.countP_le_length _
  · rintro x hx ⟨h1, h2⟩
    rw [F.lt_eq_false_of_beq h2] at h1
    simp at h1

/-- Finite non-negative votes pass the negativity check. -/
theorem any_neg_eq_false {votes : List F}
    (hall : ∀ v ∈ votes, F.isFinNonneg v = true) :
    votes.any (fun v => F.lt v (F.fin 0)) = false := by
  rw [List.any_eq_false]
  intro v hv
  obtain ⟨q, rfl, hq⟩ := isFinNonneg_elim (hall v hv)
  simp [F.lt]
  linarith

/-- Finite non-negative votes with a positive total pass the zero-sum check,
and some vote is strictly positive. -/
theorem sum_checks {votes : List F}
    (hall : ∀ v ∈ votes, F.isFinNonneg v = true)
    (hpos : F.lt (F.fin 0) (F.sum votes) = true) :
    F.beq (F.sum votes) (F.fin 0) = false ∧
      ∃ v ∈ votes, ∃ q : ℚ, v = F.fin q ∧ 0 < q := by
  obtain ⟨s, hS, hs0, hdisj⟩ := sum_spec hall
  rw [hS] at hpos ⊢
  have hspos : 0 < s := by simpa [F.lt] using hpos
  refine ⟨by simp [F.beq]; linarith, ?_⟩
  rcases hdisj with h | h
  · exact h
  · rw [h] at hspos
    exact absurd hspos (lt_irrefl 0)

/-- Slots of the all-zero initial tally read zero. -/
theorem getD_replicate_zero : ∀ (n j : ℕ), (List.replicate n (0:ℕ)).getD j 0 = 0 := by
  intro n
  induction n with
  | zero => intro j; rfl
  | succ n ih =>
      intro j
      cases j with
      | zero => rfl
      | succ j =>
          rw [List.replicate_succ, List.getD_cons_succ]
          exact ih j

/-- After the three validation checks pass, `distribute` reduces to the tie
test and the tally. -/
theorem distribute_valid_branch (pick : List PartyQuotient → ℕ → List PartyQuotient)
    (votes : List F) (k : ℕ) (b : Bool) (h1 : ¬ k < 1)
    (h2 : votes.any (fun v => F.lt v (F.fin 0)) = false)
    (h3 : F.beq (F.sum votes) (F.fin 0) = false) :
    distribute pick votes k b =
      if 0 < seatsTooMany votes k then
        if b = false then some (DResult.err DistributionError.Tied)
        else
          (tally votes.length
            (winnersOf votes k ++
              pick (possibleWinnersOf votes k)
                (Int.toNat ((possibleWinnersOf votes k).length
                  - seatsTooMany votes k)))).map DResult.ok
      else
        (tally votes.length (winnersOf votes k ++ possibleWinnersOf votes k)).map
          DResult.ok := by
  unfold distribute
  rw [if_neg h1, if_neg (by simp [h2]), if_neg (by simp [h3])]

/-- Master lemma: with at least one seat, finite non-negative votes, positive
total, any valid draw, and no `Tied` exit, `distribute` returns a tally of the
right length whose total is exactly `seat_count` and which gives no seat to a
zero-vote party. -/
theorem distribute_ok_spec (pick : List PartyQuotient → ℕ → List PartyQuotient)
    (votes : List F) (k : ℕ) (b : Bool)
    (hpick : ValidPick pick)
    (hall : ∀ v ∈ votes, F.isFinNonneg v = true)
    (hk : 1 ≤ k)
    (hbound : votes.length * k < 2^63)
    (hpos : F.lt (F.fin 0) (F.sum votes) = true)
    (hnt : ¬(0 < seatsTooMany votes k ∧ b = false)) :
    ∃ d, distribute pick votes k b = some (DResult.ok d) ∧ d.length = votes.length ∧
      d.sum = k ∧ ∀ j, votes[j]? = some (F.fin 0) → d.getD j 0 = 0 := by
  have h1 : ¬ k < 1 := by omega
  have h2 := any_neg_eq_false hall
  obtain ⟨h3, hexpos⟩ := sum_checks hall hpos
  have hvne : 0 < votes.length := by
    rcases hexpos with ⟨v, hv, _⟩
    exact List.length_pos.mpr (List.ne_nil_of_mem hv)
  have hk1 : k ≤ votes.length * k := by
    have h := Nat.mul_le_mul_right k hvne
    simpa using h
  have hk63 : k < 2^63 := by omega
  have hdiv : (divisors k).length = k := length_divisors_of_lt hk63
  have hlen : (sortedPQ votes k).length = votes.length * k := by
    rw [length_sortedPQ, hdiv]
  have hkl : k ≤ (sortedPQ votes k).length := by
    rw [hlen]
    exact hk1
  have hx0e : k - 1 < (sortedPQ votes k).length := by omega
  obtain ⟨x0, hx0⟩ : ∃ x0, (sortedPQ votes k)[k-1]? = some x0 :=
    ⟨_, List.getElem?_eq_getElem hx0e⟩
  have hx0mem : x0 ∈ sortedPQ votes k := List.getElem?_mem hx0
  have hlwq : lastWinningQuotient votes k = x0.quotient := by
    rw [lastWinningQuotient, hx0]
    rfl
  have hfin := sortedPQ_fin (k := k) hall
  have hs := sortedPQ_sorted (k := k) hall
  have hW : (winnersOf votes k).length
      = (sortedPQ votes k).countP (fun x => F.lt x0.quotient x.quotient) := by
    rw [winnersOf, hlwq]
    exact Eq.symm (List.countP_eq_length_filter _ _)
  have hP : (possibleWinnersOf votes k).length
      = (sortedPQ votes k).countP (fun x => F.beq x.quotient x0.quotient) := by
    rw [possibleWinnersOf, hlwq]
    exact Eq.symm (List.countP_eq_length_filter _ _)
  have hWlt : (winnersOf votes k).length < k := by
    rw [hW]
    exact countP_gt_lt hk hs hfin hx0
  have hWP : k ≤ (winnersOf votes k).length + (possibleWinnersOf votes k).length := by
    rw [hW, hP]
    exact countP_ge_k hk hkl hs hfin hx0
  have hb2 : (winnersOf votes k).length + (possibleWinnersOf votes k).length
      ≤ (sortedPQ votes k).length :=
    filters_length_le (sortedPQ votes k) (lastWinningQuotient votes k)
  have hstm : seatsTooMany votes k = ((winnersOf votes k).length : ℤ)
      + ((possibleWinnersOf votes k).length : ℤ) - (k : ℤ) := by
    unfold seatsTooMany
    rw [usizeAsI64_of_lt hk63]
    exact wrap64_eq_self (by omega) (by omega)
  have hposcnt : k ≤ (sortedPQ votes k).countP (fun x => F.lt (F.fin 0) x.quotient) := by
    have h := count_pos_pqGo (k := k) 0 hexpos
    rw [hdiv] at h
    have he : (sortedPQ votes k).countP (fun x => F.lt (F.fin 0) x.quotient)
        = (partyQuotients votes k).countP (fun x => F.lt (F.fin 0) x.quotient) :=
      countP_sortBy pqLE _ (partyQuotients votes k)
    rw [he]
    exact h
  have hx0pos := threshold_pos hk hs hfin hx0 hposcnt
  have hbw : ∀ pq ∈ winnersOf votes k, pq.party < votes.length :=
    fun pq hpq => sortedPQ_party_lt pq (List.mem_of_mem_filter hpq)
  have hbp : ∀ pq ∈ possibleWinnersOf votes k, pq.party < votes.length :=
    fun pq hpq => sortedPQ_party_lt pq (List.mem_of_mem_filter hpq)
  have hzero : ∀ j, votes[j]? = some (F.fin 0) → ∀ pq,
      pq ∈ winnersOf votes k ∨ pq ∈ possibleWinnersOf votes k → pq.party ≠ j := by
    intro j hj pq hpq hpj
    have hpqs : pq ∈ sortedPQ votes k := by
      rcases hpq with h | h
      · exact List.mem_of_mem_filter h
      · exact List.mem_of_mem_filter h
    obtain ⟨j', v, hv, hparty, d, hd, hq⟩ := mem_pqGo (mem_sortBy.mp hpqs)
    have hj' : j' = j := by omega
    rw [hj', hj] at hv
    have hveq : F.fin 0 = v := Option.some.inj hv
    have hq0 : pq.quotient = F.fin 0 := by
      rw [hq, ← hveq]
      simp [F.div]
    rcases hpq with h | h
    · have hgt := List.of_mem_filter h
      rw [hlwq, hq0] at hgt
      have hasym := F.lt_asymm_fin (hfin x0 hx0mem) ⟨0, rfl⟩ hgt
      rw [hasym] at hx0pos
      exact Bool.false_ne_true hx0pos
    · have heq := List.of_mem_filter h
      rw [hlwq, hq0] at heq
      have hx0q := F.beq_eq ⟨0, rfl⟩ heq
      rw [← hx0q] at hx0pos
      simp [F.lt] at hx0pos
  rw [distribute_valid_branch pick votes k b h1 h2 h3]
  by_cases htie : 0 < seatsTooMany votes k
  · have hb : b = true := by
      cases b
      · exact absurd ⟨htie, rfl⟩ hnt
      · rfl
    rw [if_pos htie, hb, if_neg (by simp)]
    obtain ⟨hsubset, hlen'⟩ := hpick (possibleWinnersOf votes k)
      (Int.toNat (((possibleWinnersOf votes k).length : ℤ) - seatsTooMany votes k))
    have hnd : Int.toNat (((possibleWinnersOf votes k).length : ℤ) - seatsTooMany votes k)
        = k - (winnersOf votes k).length := by
      rw [hstm]
      omega
    rw [hnd] at hlen'
    have hdlen : (pick (possibleWinnersOf votes k)
        (Int.toNat (((possibleWinnersOf votes k).length : ℤ) - seatsTooMany votes k))).length
        = k - (winnersOf votes k).length := by
      rw [hnd, hlen']
      omega
    have hbounds : ∀ pq ∈ winnersOf votes k ++ pick (possibleWinnersOf votes k)
        (Int.toNat (((possibleWinnersOf votes k).length : ℤ) - seatsTooMany votes k)),
        pq.party < (List.replicate votes.length (0:ℕ)).length := by
      rw [List.length_replicate]
      intro pq hpq
      rcases List.mem_append.mp hpq with h | h
      · exact hbw pq h
      · exact hbp pq (hsubset pq h)
    obtain ⟨d, hd1, hd2, hd3, hd4⟩ := tallyGo_spec _ _ hbounds
    have hcnt0 : ∀ j, votes[j]? = some (F.fin 0) →
        (winnersOf votes k ++ pick (possibleWinnersOf votes k)
          (Int.toNat (((possibleWinnersOf votes k).length : ℤ)
            - seatsTooMany votes k))).countP (fun pq => pq.party == j) = 0 := by
      intro j hj
      apply List.countP_eq_zero.mpr
      intro pq hpq
      rcases List.mem_append.mp hpq with h | h
      · simpa using hzero j hj pq (Or.inl h)
      · simpa using hzero j hj pq (Or.inr (hsubset pq h))
    refine ⟨d, ?_, ?_, ?_, ?_⟩
    · have ht : tally votes.length (winnersOf votes k ++ pick (possibleWinnersOf votes k)
          (Int.toNat (((possibleWinnersOf votes k).length : ℤ)
            - seatsTooMany votes k))) = some d := hd1
      rw [ht]
      rfl
    · rw [hd2, List.length_replicate]
    · have hrepsum : (List.replicate votes.length (0:ℕ)).sum = 0 := by simp
      rw [hd3, hrepsum, List.length_append, hdlen]
      omega
    · intro j hj
      rw [hd4 j, getD_replicate_zero, hcnt0 j hj]
  · rw [if_neg htie]
    have hsum : (winnersOf votes k).length + (possibleWinnersOf votes k).length = k := by
      rw [hstm] at htie
      omega
    have hbounds : ∀ pq ∈ winnersOf votes k ++ possibleWinnersOf votes k,
        pq.party < (List.replicate votes.length (0:ℕ)).length := by
      rw [List.length_replicate]
      intro pq hpq
      rcases List.mem_append.mp hpq with h | h
      · exact hbw pq h
      · exact hbp pq h
    obtain ⟨d, hd1, hd2, hd3, hd4⟩ := tallyGo_spec _ _ hbounds
    have hcnt0 : ∀ j, votes[j]? = some (F.fin 0) →
        (winnersOf votes k ++ possibleWinnersOf votes k).countP
          (fun pq => pq.party == j) = 0 := by
      intro j hj
      apply List.countP_eq_zero.mpr
      intro pq hpq
      rcases List.mem_append.mp hpq with h | h
      · simpa using hzero j hj pq (Or.inl h)
      · simpa using hzero j hj pq (Or.inr h)
    refine ⟨d, ?_, ?_, ?_, ?_⟩
    · have ht : tally votes.length (winnersOf votes k ++ possibleWinnersOf votes k)
          = some d := hd1
      rw [ht]
      rfl
    · rw [hd2, List.length_replicate]
    · have hrepsum : (List.replicate votes.length (0:ℕ)).sum = 0 := by rw [List.sum_replicate]; simp
      rw [hd3, hrepsum, List.length_append]
      omega
    · intro j hj
      rw [hd4 j, getD_replicate_zero, hcnt0 j hj]

/-- A tally result mapped to `Ok` is never an error value. -/
theorem map_ok_ne_err (o : Option (List ℕ)) (e : DistributionError) :
    o.map DResult.ok ≠ some (DResult.err e) := by
  cases o <;> simp

/-- Exhaustive classification of the error results of `distribute`: each error
is returned exactly on its own branch condition, checked in source order. -/
theorem distribute_errors (pick : List PartyQuotient → ℕ → List PartyQuotient)
    (votes : List F) (k : ℕ) (b : Bool) :
    (distribute pick votes k b = some (DResult.err DistributionError.InvalidSeatCount) ↔
      k < 1) ∧
    (distribute pick votes k b = some (DResult.err DistributionError.NegativeVotes) ↔
      ¬ k < 1 ∧ votes.any (fun v => F.lt v (F.fin 0)) = true) ∧
    (distribute pick votes k b = some (DResult.err DistributionError.NoVotes) ↔
      ¬ k < 1 ∧ votes.any (fun v => F.lt v (F.fin 0)) = false ∧
        F.beq (F.sum votes) (F.fin 0) = true) ∧
    (distribute pick votes k b = some (DResult.err DistributionError.Tied) ↔
      ¬ k < 1 ∧ votes.any (fun v => F.lt v (F.fin 0)) = false ∧
        F.beq (F.sum votes) (F.fin 0) = false ∧
        0 < seatsTooMany votes k ∧ b = false) := by
  unfold distribute
  by_cases h1 : k < 1
  · rw [if_pos h1]
    refine ⟨iff_of_true rfl h1, iff_of_false (by simp) ?_, iff_of_false (by simp) ?_,
      iff_of_false (by simp) ?_⟩
    · rintro ⟨hh, _⟩
      exact hh h1
    · rintro ⟨hh, _⟩
      exact hh h1
    · rintro ⟨hh, _⟩
      exact hh h1
  · rw [if_neg h1]
    by_cases h2 : votes.any (fun v => F.lt v (F.fin 0)) = true
    · rw [if_pos h2]
      refine ⟨iff_of_false (by simp) (fun hh => h1 hh), iff_of_true rfl ⟨h1, h2⟩,
        iff_of_false (by simp) ?_, iff_of_false (by simp) ?_⟩
      · rintro ⟨_, hh, _⟩
        rw [h2] at hh
        simp at hh
      · rintro ⟨_, hh, _, _, _⟩
        rw [h2] at hh
        simp at hh
    · have h2' : votes.any (fun v => F.lt v (F.fin 0)) = false := by simpa using h2
      rw [if_neg (by simp [h2'])]
      by_cases h3 : F.beq (F.sum votes) (F.fin 0) = true
      · rw [if_pos h3]
        refine ⟨iff_of_false (by simp) (fun hh => h1 hh), iff_of_false (by simp) ?_,
          iff_of_true rfl ⟨h1, h2', h3⟩, iff_of_false (by simp) ?_⟩
        · rintro ⟨_, hh⟩
          rw [h2'] at hh
          simp at hh
        · rintro ⟨_, _, hh, _, _⟩
          rw [h3] at hh
          simp at hh
      · have h3' : F.beq (F.sum votes) (F.fin 0) = false := by simpa using h3
        rw [if_neg (by simp [h3'])]
        by_cases h4 : 0 < seatsTooMany votes k
        · rw [if_pos h4]
          by_cases h5 : b = false
          · rw [if_pos h5]
            refine ⟨iff_of_false (by simp) (fun hh => h1 hh),
              iff_of_false (by simp) ?_, iff_of_false (by simp) ?_,
              iff_of_true rfl ⟨h1, h2', h3', h4, h5⟩⟩
            · rintro ⟨_, hh⟩
              rw [h2'] at hh
              simp at hh
            · rintro ⟨_, _, hh⟩
              rw [h3'] at hh
              simp at hh
          · rw [if_neg h5]
            refine ⟨iff_of_false (map_ok_ne_err _ _) (fun hh => h1 hh),
              iff_of_false (map_ok_ne_err _ _) ?_,
              iff_of_false (map_ok_ne_err _ _) ?_,
              iff_of_false (map_ok_ne_err _ _) ?_⟩
            · rintro ⟨_, hh⟩
              rw [h2'] at hh
              simp at hh
            · rintro ⟨_, _, hh⟩
              rw [h3'] at hh
              simp at hh
            · rintro ⟨_, _, _, _, hh⟩
              exact h5 hh
        · rw [if_neg h4]
          refine ⟨iff_of_false (map_ok_ne_err _ _) (fun hh => h1 hh),
            iff_of_false (map_ok_ne_err _ _) ?_,
            iff_of_false (map_ok_ne_err _ _) ?_,
            iff_of_false (map_ok_ne_err _ _) ?_⟩
          · rintro ⟨_, hh⟩
            rw [h2'] at hh
            simp at hh
          · rintro ⟨_, _, hh⟩
            rw [h3'] at hh
            simp at hh
          · rintro ⟨_, _, _, hh, _⟩
            exact h4 hh

/-- Taking the first `n` elements is a valid draw outcome. -/
theorem validPick_pickTake : ValidPick pickTake := by
  intro l n
  exact ⟨fun x hx => List.take_subset n l hx, List.length_take n l⟩

/-- Taking the last `n` elements is a valid draw outcome. -/
theorem validPick_pickDrop : ValidPick pickDrop := by
  intro l n
  refine ⟨fun x hx => List.drop_subset _ l hx, ?_⟩
  rw [pickDrop, List.length_drop]
  omega

/-- Mapping a constant function yields a replicated list. -/
theorem map_const_list (l : List ℚ) (c : PartyQuotient) :
    l.map (fun _ => c) = List.replicate l.length c := by
  induction l with
  | nil => rfl
  | cons a t ih => simp [List.replicate_succ, ih]

/-- Inserting an element into a run of copies of itself appends one copy. -/
theorem insertLE_replicate {le : PartyQuotient → PartyQuotient → Bool}
    {c : PartyQuotient} (h : le c c = true) :
    ∀ n, insertLE le c (List.replicate n c) = List.replicate (n + 1) c := by
  intro n
  cases n with
  | zero => rfl
  | succ n =>
      rw [List.replicate_succ, insertLE, if_pos h]
      rfl

/-- Sorting a constant list is the identity. -/
theorem sortBy_replicate {le : PartyQuotient → PartyQuotient → Bool}
    {c : PartyQuotient} (h : le c c = true) :
    ∀ n, sortBy le (List.replicate n c) = List.replicate n c := by
  intro n
  induction n with
  | zero => rfl
  | succ n ih =>
      rw [List.replicate_succ, sortBy, ih, insertLE_replicate h, List.replicate_succ]

/-- C1: for every input with `seat_count ≥ 1`, all votes finite and
non-negative, strictly positive vote total, and a candidate pool below the
i64 wrap threshold (`parties * seat_count < 2^63`; without that bound the
claim fails, see the counterexample), whenever `distribute` does not return
the `Tied` error it returns `Ok d` with the elements of `d` summing to
`seat_count` — for every possible outcome of the random draw. -/
theorem c1_conservation (pick : List PartyQuotient → ℕ → List PartyQuotient)
    (votes : List F) (k : ℕ) (b : Bool)
    (hpick : ValidPick pick)
    (hall : ∀ v ∈ votes, F.isFinNonneg v = true)
    (hk : 1 ≤ k)
    (hbound : votes.length * k < 2^63)
    (hpos : F.lt (F.fin 0) (F.sum votes) = true)
    (hnt : distribute pick votes k b ≠ some (DResult.err DistributionError.Tied)) :
    ∃ d, distribute pick votes k b = some (DResult.ok d) ∧ d.sum = k := by
  have hnt' : ¬(0 < seatsTooMany votes k ∧ b = false) := by
    rintro ⟨ht, hb⟩
    apply hnt
    rw [distribute_valid_branch pick votes k b (by omega) (any_neg_eq_false hall)
      (sum_checks hall hpos).1]
    rw [if_pos ht, if_pos hb]
  obtain ⟨d, h1, _, h3, _⟩ := distribute_ok_spec pick votes k b hpick hall hk hbound hpos hnt'
  exact ⟨d, h1, h3⟩

/-- Witness for C1 at a concrete input. -/
theorem c1_conservation_witness :
    ∃ d, distribute pickTake [F.fin 2, F.fin 1] 3 false = some (DResult.ok d) ∧
      d.sum = 3 :=
  c1_conservation pickTake [F.fin 2, F.fin 1] 3 false validPick_pickTake
    (by decide) (by decide) (by decide) (by with_unfolding_all decide)
    (by with_unfolding_all decide)

/-- C1 counterexample: at `seat_count = 2^63` the wrapped cast of the seat
count empties the divisor pool and `seats_too_many` wraps to `-2^63`, so
`distribute` returns `Ok [0]` — no `Tied` error — with an output summing to
0, not `seat_count`, although the input meets every condition of the
claim. -/
theorem c1_counterexample :
    (∀ v ∈ [F.fin 1], F.isFinNonneg v = true) ∧
    1 ≤ 2^63 ∧
    F.lt (F.fin 0) (F.sum [F.fin 1]) = true ∧
    distribute pickTake [F.fin 1] (2^63) false = some (DResult.ok [0]) ∧
    ([0] : List ℕ).sum ≠ 2^63 := by
  refine ⟨by decide, by decide, by with_unfolding_all decide, ?_, by decide⟩
  with_unfolding_all decide

/-- C2: the three validation errors are classified with first-failing-check
precedence — `seat_count < 1` gives `InvalidSeatCount` regardless of votes,
then any negative vote gives `NegativeVotes`, then an empty vote list or an
exactly-zero sum gives `NoVotes` — and in no other circumstances. -/
theorem c2_validation_order (pick : List PartyQuotient → ℕ → List PartyQuotient)
    (votes : List F) (k : ℕ) (b : Bool) :
    (distribute pick votes k b = some (DResult.err DistributionError.InvalidSeatCount) ↔
      k < 1) ∧
    (distribute pick votes k b = some (DResult.err DistributionError.NegativeVotes) ↔
      ¬ k < 1 ∧ votes.any (fun v => F.lt v (F.fin 0)) = true) ∧
    (distribute pick votes k b = some (DResult.err DistributionError.NoVotes) ↔
      ¬ k < 1 ∧ votes.any (fun v => F.lt v (F.fin 0)) = false ∧
        (votes = [] ∨ F.beq (F.sum votes) (F.fin 0) = true)) := by
  obtain ⟨e1, e2, e3, _⟩ := distribute_errors pick votes k b
  refine ⟨e1, e2, ?_⟩
  rw [e3]
  constructor
  · rintro ⟨g1, g2, g3⟩
    exact ⟨g1, g2, Or.inr g3⟩
  · rintro ⟨g1, g2, g3⟩
    refine ⟨g1, g2, ?_⟩
    rcases g3 with rfl | g3
    · rfl
    · exact g3

/-- Witness for C2 at concrete inputs, one per validation error. -/
theorem c2_validation_order_witness :
    distribute pickTake [F.fin 3] 0 false
        = some (DResult.err DistributionError.InvalidSeatCount) ∧
    distribute pickTake [F.fin 4, F.fin (-4)] 50 false
        = some (DResult.err DistributionError.NegativeVotes) ∧
    distribute pickTake [F.fin 0, F.fin 0] 50 false
        = some (DResult.err DistributionError.NoVotes) :=
  ⟨(c2_validation_order pickTake [F.fin 3] 0 false).1.mpr (by decide),
    (c2_validation_order pickTake [F.fin 4, F.fin (-4)] 50 false).2.1.mpr
      ⟨by decide, by decide⟩,
    (c2_validation_order pickTake [F.fin 0, F.fin 0] 50 false).2.2.mpr
      ⟨by decide, by decide, Or.inr (by with_unfolding_all decide)⟩⟩

/-- C6: for votes `[2.0, 2.0]` and 2 seats, both tie policies give
`Ok [1, 1]`: the tied candidates exactly fill the remaining seats, so no draw
happens (the result does not depend on the random source at all) and no
`Tied` error is raised. -/
theorem c6_exact_tie_fill (pick : List PartyQuotient → ℕ → List PartyQuotient)
    (b : Bool) :
    distribute pick [F.fin 2, F.fin 2] 2 b = some (DResult.ok [1, 1]) := by
  rw [distribute_valid_branch pick [F.fin 2, F.fin 2] 2 b (by decide) (by decide)
    (by with_unfolding_all decide)]
  rw [if_neg (by with_unfolding_all decide)]
  with_unfolding_all decide

/-- Witness for C6 at the draw-enabled flag. -/
theorem c6_exact_tie_fill_witness :
    distribute pickTake [F.fin 2, F.fin 2] 2 true = some (DResult.ok [1, 1]) :=
  c6_exact_tie_fill pickTake true

/-- C8: whenever the code's `seats_too_many` value is not positive — under
any quotient map (so under the program's real f64 rounding, including
overflow to infinity) and any sort order — the result of the pipeline does
not depend on the random source: any two draw functions (two runs with
different random states) give identical results; instantiating the quotient
map with exact division and the sort with the stable insertion sort recovers
the concrete `distribute`. -/
theorem c8_no_tie_deterministic :
    (∀ (quot : F → ℚ → F) (srt : List PartyQuotient → List PartyQuotient)
        (votes : List F) (k : ℕ) (b : Bool)
        (p1 p2 : List PartyQuotient → ℕ → List PartyQuotient),
      seatsTooManyGen quot srt votes k ≤ 0 →
      distributeGen quot srt p1 votes k b = distributeGen quot srt p2 votes k b) ∧
    (∀ pick votes k b,
      distributeGen F.div (sortBy pqLE) pick votes k b = distribute pick votes k b) := by
  constructor
  · intro quot srt votes k b p1 p2 h
    unfold distributeGen
    split_ifs <;> first | rfl | omega
  · intro pick votes k b
    rfl

/-- Witness for C8 at a concrete input with two different draw functions. -/
theorem c8_no_tie_deterministic_witness :
    distributeGen F.div (sortBy pqLE) pickTake [F.fin 1] 1 false
      = distributeGen F.div (sortBy pqLE) pickDrop [F.fin 1] 1 false :=
  c8_no_tie_deterministic.1 F.div (sortBy pqLE) [F.fin 1] 1 false pickTake pickDrop
    (by with_unfolding_all decide)

/-- C3: `distribute` returns the `Tied` error exactly when the inputs pass
validation, the draw flag is off, and the code's wrapped i64
`seats_too_many` value is positive; below the wrap threshold
(`seat_count < 2^63` and pool `< 2^63`) that value equals the mathematical
tie-overflow count the claim describes (above it the two part: see the
counterexample); in particular for votes `[3, 3, 1]` and 8 seats the flag
off gives `Tied` and the flag on gives `Ok [4, 3, 1]` or `Ok [3, 4, 1]`,
whatever the outcome of the draw. -/
theorem c3_tie_handling :
    (∀ (pick : List PartyQuotient → ℕ → List PartyQuotient) (votes : List F)
        (k : ℕ) (b : Bool),
      distribute pick votes k b = some (DResult.err DistributionError.Tied) ↔
        ¬ k < 1 ∧ votes.any (fun v => F.lt v (F.fin 0)) = false ∧
        F.beq (F.sum votes) (F.fin 0) = false ∧
        0 < seatsTooMany votes k ∧ b = false) ∧
    (∀ (votes : List F) (k : ℕ), k < 2^63 → votes.length * k < 2^63 →
      seatsTooMany votes k = ((winnersOf votes k).length : ℤ)
        + ((possibleWinnersOf votes k).length : ℤ) - (k : ℤ)) ∧
    (∀ pick, distribute pick [F.fin 3, F.fin 3, F.fin 1] 8 false
        = some (DResult.err DistributionError.Tied)) ∧
    (∀ pick, ValidPick pick →
      distribute pick [F.fin 3, F.fin 3, F.fin 1] 8 true
          = some (DResult.ok [4, 3, 1]) ∨
      distribute pick [F.fin 3, F.fin 3, F.fin 1] 8 true
          = some (DResult.ok [3, 4, 1])) := by
  refine ⟨fun pick votes k b => (distribute_errors pick votes k b).2.2.2, ?_, ?_, ?_⟩
  · intro votes k hk63 hbound
    have hb2 : (winnersOf votes k).length + (possibleWinnersOf votes k).length
        ≤ (sortedPQ votes k).length :=
      filters_length_le (sortedPQ votes k) (lastWinningQuotient votes k)
    have hlen : (sortedPQ votes k).length = votes.length * k := by
      rw [length_sortedPQ, length_divisors_of_lt hk63]
    unfold seatsTooMany
    rw [usizeAsI64_of_lt hk63]
    exact wrap64_eq_self (by omega) (by omega)
  · intro pick
    exact (distribute_errors pick [F.fin 3, F.fin 3, F.fin 1] 8 false).2.2.2.mpr
      ⟨by decide, by with_unfolding_all decide, by with_unfolding_all decide,
        by with_unfolding_all decide, rfl⟩
  · intro pick hpick
    rw [distribute_valid_branch pick [F.fin 3, F.fin 3, F.fin 1] 8 true (by decide)
      (by with_unfolding_all decide) (by with_unfolding_all decide)]
    rw [if_pos (by with_unfolding_all decide), if_neg (by simp)]
    obtain ⟨hsub, hlen⟩ := hpick (possibleWinnersOf [F.fin 3, F.fin 3, F.fin 1] 8)
      (Int.toNat (((possibleWinnersOf [F.fin 3, F.fin 3, F.fin 1] 8).length : ℤ)
        - seatsTooMany [F.fin 3, F.fin 3, F.fin 1] 8))
    have hlen1 : (pick (possibleWinnersOf [F.fin 3, F.fin 3, F.fin 1] 8)
        (Int.toNat (((possibleWinnersOf [F.fin 3, F.fin 3, F.fin 1] 8).length : ℤ)
          - seatsTooMany [F.fin 3, F.fin 3, F.fin 1] 8))).length = 1 := by
      rw [hlen]
      with_unfolding_all decide
    obtain ⟨x, hx⟩ := List.length_eq_one.mp hlen1
    have hxm : x ∈ possibleWinnersOf [F.fin 3, F.fin 3, F.fin 1] 8 := by
      apply hsub
      rw [hx]
      exact List.mem_singleton_self x
    have hPW : possibleWinnersOf [F.fin 3, F.fin 3, F.fin 1] 8
        = [⟨0, F.fin (6/7)⟩, ⟨1, F.fin (6/7)⟩] := by with_unfolding_all decide
    rw [hPW] at hxm
    rcases List.mem_cons.mp hxm with h | hxm2
    · subst h
      left
      rw [hx]
      with_unfolding_all decide
    · have h2 : x = ⟨1, F.fin (6/7)⟩ := by simpa using hxm2
      subst h2
      right
      rw [hx]
      with_unfolding_all decide

/-- Witness for C3: the unwrapped `seats_too_many` identity and the
draw-enabled case, both at concrete inputs. -/
theorem c3_tie_handling_witness :
    seatsTooMany [F.fin 3, F.fin 3, F.fin 1] 8
        = ((winnersOf [F.fin 3, F.fin 3, F.fin 1] 8).length : ℤ)
        + ((possibleWinnersOf [F.fin 3, F.fin 3, F.fin 1] 8).length : ℤ)
        - ((8 : ℕ) : ℤ) ∧
    (distribute pickTake [F.fin 3, F.fin 3, F.fin 1] 8 true
        = some (DResult.ok [4, 3, 1]) ∨
      distribute pickTake [F.fin 3, F.fin 3, F.fin 1] 8 true
        = some (DResult.ok [3, 4, 1])) :=
  ⟨c3_tie_handling.2.1 [F.fin 3, F.fin 3, F.fin 1] 8 (by decide) (by decide),
    c3_tie_handling.2.2.2 pickTake validPick_pickTake⟩

/-- C3 counterexample: at `2^63 + 1` seats and a one-party vote list the
wrapped `seats_too_many` is positive and `distribute` returns `Tied`,
although the mathematical tie-overflow count of the claim is negative. -/
theorem c3_counterexample :
    distribute pickTake [F.fin 1] (2^63 + 1) false
        = some (DResult.err DistributionError.Tied) ∧
    ((winnersOf [F.fin 1] (2^63 + 1)).length : ℤ)
        + ((possibleWinnersOf [F.fin 1] (2^63 + 1)).length : ℤ)
        - ((2^63 + 1 : ℕ) : ℤ) < 0 := by
  constructor
  · with_unfolding_all decide
  · with_unfolding_all decide

/-- C5: in the exact-division model — real `f64` division can underflow a
tiny positive quotient to `+0.0` and then seat a zero-vote party, see the
counterexample — with at least one seat, finite non-negative votes, strictly
positive vote total and a pool below the wrap threshold, a party whose vote
value is exactly 0 receives exactly 0 seats in any Ok result, for every
outcome of the random draw. -/
theorem c5_zero_vote_exclusion (pick : List PartyQuotient → ℕ → List PartyQuotient)
    (votes : List F) (k : ℕ) (b : Bool)
    (hpick : ValidPick pick)
    (hall : ∀ v ∈ votes, F.isFinNonneg v = true)
    (hk : 1 ≤ k)
    (hbound : votes.length * k < 2^63)
    (hpos : F.lt (F.fin 0) (F.sum votes) = true)
    (d : List ℕ) (hd : distribute pick votes k b = some (DResult.ok d))
    (i : ℕ) (hi : votes[i]? = some (F.fin 0)) :
    d.getD i 0 = 0 := by
  have hnt' : ¬(0 < seatsTooMany votes k ∧ b = false) := by
    rintro ⟨ht, hb⟩
    rw [distribute_valid_branch pick votes k b (by omega) (any_neg_eq_false hall)
      (sum_checks hall hpos).1, if_pos ht, if_pos hb] at hd
    simp at hd
  obtain ⟨d', h1, _, _, h4⟩ := distribute_ok_spec pick votes k b hpick hall hk hbound hpos hnt'
  rw [hd] at h1
  have hdd : d = d' := DResult.ok.inj (Option.some.inj h1)
  subst hdd
  exact h4 i hi

/-- Witness for C5 at a concrete input with a zero-vote party. -/
theorem c5_zero_vote_exclusion_witness : ([0, 5] : List ℕ).getD 0 0 = 0 :=
  c5_zero_vote_exclusion pickTake [F.fin 0, F.fin 3] 5 false validPick_pickTake
    (by decide) (by decide) (by decide) (by with_unfolding_all decide) [0, 5]
    (by with_unfolding_all decide) 0 (by decide)

set_option maxRecDepth 8000 in
/-- C5 counterexample under the real IEEE rounding (recorded by `divC5`):
with votes `[5e-324, 0.0]` and 3 seats, the two smallest quotients of the
positive-vote party round or underflow to values tied with the zero-vote
party's quotients, and the draw can seat the zero-vote party — here the
outcome that takes the last element of the tied pool gives it one seat. -/
theorem c5_counterexample :
    ValidPick pickDrop ∧
    distributeGen divC5 (sortBy pqLE) pickDrop [F.fin subnormalMin, F.fin 0] 3 true
        = some (DResult.ok [2, 1]) ∧
    ([F.fin subnormalMin, F.fin 0] : List F)[1]? = some (F.fin 0) ∧
    ([2, 1] : List ℕ).getD 1 0 ≠ 0 := by
  refine ⟨validPick_pickDrop, ?_, by decide, by decide⟩
  with_unfolding_all decide

/-- C7: whenever `distribute` returns `Ok d`, the length of `d` equals the
length of the vote list, and every element of `d` is a non-negative integer. -/
theorem c7_shape_nonneg (pick : List PartyQuotient → ℕ → List PartyQuotient)
    (votes : List F) (k : ℕ) (b : Bool) (d : List ℕ)
    (hd : distribute pick votes k b = some (DResult.ok d)) :
    d.length = votes.length ∧ ∀ x ∈ d, 0 ≤ x := by
  refine ⟨?_, fun x _ => Nat.zero_le x⟩
  unfold distribute at hd
  split at hd
  · simp at hd
  · split at hd
    · simp at hd
    · split at hd
      · simp at hd
      · split at hd
        · split at hd
          · simp at hd
          · obtain ⟨t, ht1, ht2⟩ := Option.map_eq_some'.mp hd
            have hl := tallyGo_length _ _ _ ht1
            have htd : t = d := DResult.ok.inj ht2
            subst htd
            rw [hl, List.length_replicate]
        · obtain ⟨t, ht1, ht2⟩ := Option.map_eq_some'.mp hd
          have hl := tallyGo_length _ _ _ ht1
          have htd : t = d := DResult.ok.inj ht2
          subst htd
          rw [hl, List.length_replicate]

/-- Witness for C7 at a concrete successful input. -/
theorem c7_shape_nonneg_witness :
    ([1, 1] : List ℕ).length = ([F.fin 2, F.fin 2] : List F).length ∧
      ∀ x ∈ ([1, 1] : List ℕ), 0 ≤ x :=
  c7_shape_nonneg pickTake [F.fin 2, F.fin 2] 2 false [1, 1]
    (by with_unfolding_all decide)

/-- C9: the no-panic claim fails at the seat count `2^63` — the cast
`seat_count as i64` wraps to `-2^63`, making the divisor range (and so the
whole pool) empty, and `seats_too_many` computes `0 + 0 - (-2^63)`, which
overflows i64: a profile with overflow checks panics on that subtraction,
while in release the wrap makes the function return `Ok` with an all-zero
distribution, as this model of the release semantics shows. -/
theorem c9_wrap_behavior :
    distribute pickTake [F.fin 1, F.fin 1] (2^63) false
      = some (DResult.ok [0, 0]) := by
  with_unfolding_all decide

/-- C10: for votes `[NaN]`, any seat count in `[1, 2^63)` and either flag,
all validation checks pass (NaN is neither negative nor makes the sum zero)
and the result is `Ok [0]`: no quotient compares above or equal to the NaN
threshold, so no seats are assigned and the output sums to 0, not
`seat_count`.  At seat counts of 2^63 and above the claim's "every
seat_count ≥ 1" fails: the wrapped cast can turn the result into `Err Tied`
(see the counterexample). -/
theorem c10_nan_votes (pick : List PartyQuotient → ℕ → List PartyQuotient)
    (k : ℕ) (b : Bool) (hk : 1 ≤ k) (hk63 : k < 2^63) :
    distribute pick [F.nan] k b = some (DResult.ok [0]) ∧
      ([0] : List ℕ).sum ≠ k := by
  have h2 : ([F.nan] : List F).any (fun v => F.lt v (F.fin 0)) = false := by decide
  have h3 : F.beq (F.sum [F.nan]) (F.fin 0) = false := by decide
  rw [distribute_valid_branch pick [F.nan] k b (by omega) h2 h3]
  have hpool : partyQuotients [F.nan] k = List.replicate k ⟨0, F.nan⟩ := by
    unfold partyQuotients
    simp [pqGo, F.div, map_const_list, length_divisors_of_lt hk63]
  have hsorted : sortedPQ [F.nan] k = List.replicate k ⟨0, F.nan⟩ := by
    rw [sortedPQ, hpool, sortBy_replicate (by decide)]
  have hlwq : lastWinningQuotient [F.nan] k = F.nan := by
    unfold lastWinningQuotient
    rw [hsorted, List.getElem?_replicate, if_pos (by omega)]
    rfl
  have hwin : winnersOf [F.nan] k = [] := by
    unfold winnersOf
    rw [hlwq, hsorted]
    apply List.filter_eq_nil_iff.mpr
    intro a ha
    have haa : a = ⟨0, F.nan⟩ := List.eq_of_mem_replicate ha
    subst haa
    simp [F.lt]
  have hposs : possibleWinnersOf [F.nan] k = [] := by
    unfold possibleWinnersOf
    rw [hlwq, hsorted]
    apply List.filter_eq_nil_iff.mpr
    intro a ha
    have haa : a = ⟨0, F.nan⟩ := List.eq_of_mem_replicate ha
    subst haa
    simp [F.beq]
  have hstm : seatsTooMany [F.nan] k = -(k:ℤ) := by
    unfold seatsTooMany
    rw [hwin, hposs, usizeAsI64_of_lt hk63]
    have h0 : ((([] : List PartyQuotient).length : ℤ)
        + (([] : List PartyQuotient).length : ℤ) - (k : ℤ)) = -(k : ℤ) := by
      simp
    rw [h0]
    exact wrap64_eq_self (by omega) (by omega)
  rw [if_neg (by rw [hstm]; omega), hwin, hposs]
  constructor
  · rfl
  · simp
    omega

/-- Witness for C10 at a single seat. -/
theorem c10_nan_votes_witness :
    distribute pickTake [F.nan] 1 false = some (DResult.ok [0]) ∧
      ([0] : List ℕ).sum ≠ 1 :=
  c10_nan_votes pickTake 1 false (by decide) (by decide)

/-- C10 counterexample: at `seat_count = 2^63 + 1` the wrapped cast empties
the divisor range and leaves the wrapped `seats_too_many` positive, so
`distribute` on `[NaN]` with the draw flag off returns `Err Tied`, not the
`Ok [0]` the claim asserts for every seat count ≥ 1. -/
theorem c10_counterexample :
    distribute pickTake [F.nan] (2^63 + 1) false
        = some (DResult.err DistributionError.Tied) ∧
      distribute pickTake [F.nan] (2^63 + 1) false ≠ some (DResult.ok [0]) := by
  constructor
  · with_unfolding_all decide
  · with_unfolding_all decide

/-- C4 counterexample: at one party with vote 1 and 2 seats, the pool the
claim describes (one quotient per divisor `1.5, 2.5, …, seat_count − 0.5`)
is not the pool the code builds, and its size is not
`parties * seat_count` either — the code's divisor list starts at `0.5`. -/
theorem c4_counterexample :
    specPartyQuotients [F.fin 1] 2 ≠ partyQuotients [F.fin 1] 2 ∧
    (specPartyQuotients [F.fin 1] 2).length ≠ 1 * 2 ∧
    (partyQuotients [F.fin 1] 2).length = 1 * 2 := by
  refine ⟨by with_unfolding_all decide, by decide, by decide⟩

/-- C4 (amended): for each party with vote value `v`, `distribute` generates
one candidate quotient `v / d` per divisor `d = j - 0.5` for
`j = 1, …, m` — so the divisor list starts at `0.5`, not the claim's `1.5` —
where `m` is the wrapped-cast-clamped seat count, equal to `seat_count`
itself whenever `seat_count < 2^63`, and the pool has exactly `parties * m`
entries (`parties * seat_count` below the wrap threshold). -/
theorem c4_quotient_pool (votes : List F) (k : ℕ) :
    (partyQuotients votes k).length = votes.length * Int.toNat (usizeAsI64 k) ∧
    (k < 2^63 → (partyQuotients votes k).length = votes.length * k) ∧
    (k < 2^63 → ∀ i v j, votes[i]? = some v → 1 ≤ j → j ≤ k →
      PartyQuotient.mk i (F.div v ((j : ℚ) - 1/2)) ∈ partyQuotients votes k) := by
  have hlen : (partyQuotients votes k).length
      = votes.length * (divisors k).length := length_pqGo F.div k votes 0
  refine ⟨?_, ?_, ?_⟩
  · rw [hlen, length_divisors]
  · intro hk63
    rw [hlen, length_divisors_of_lt hk63]
  · intro hk63 i v j hv h1 h2
    have hkk : Int.toNat (usizeAsI64 k) = k := by
      rw [usizeAsI64_of_lt hk63]
      exact Int.toNat_natCast k
    have hd : ((j : ℚ) - 1/2) ∈ divisors k := by
      unfold divisors
      rw [hkk]
      apply List.mem_map.mpr
      refine ⟨j - 1, List.mem_range.mpr (by omega), ?_⟩
      rw [Nat.cast_sub h1]
      push_cast
      ring
    have hmem : PartyQuotient.mk (0 + i) (F.div v ((j : ℚ) - 1/2))
        ∈ pqGo F.div k 0 votes := pqGo_mem hv hd
    unfold partyQuotients
    simpa using hmem

/-- Witness for the amended C4 at a concrete (party, divisor) pair. -/
theorem c4_quotient_pool_witness :
    (partyQuotients [F.fin 1] 2).length = 1 * 2 ∧
      PartyQuotient.mk 0 (F.div (F.fin 1) ((1 : ℚ) - 1/2)) ∈ partyQuotients [F.fin 1] 2 :=
  ⟨(c4_quotient_pool [F.fin 1] 2).2.1 (by decide),
    (c4_quotient_pool [F.fin 1] 2).2.2 (by decide) 0 (F.fin 1) 1 (by decide) (by decide)
      (by decide)⟩
